import Mathlib

/-!
Shallow embedding of the two command-line tools of this repository:

* `extract_types` (the Token Scanner, `src/rust/extract_types/src/main.rs`):
  reads a file line by line, replaces every character that is not an ASCII
  letter/digit by a space, trims, skips empty / `import `-led / `//`-led
  lines, splits on whitespace, accepts tokens matching the regexes
  `^[A-Z][A-Za-z0-9]+$` and `^\x5b([A-Z][A-Za-z0-9]+)\x5d$`, collects them
  in a `BTreeSet<String>` and writes the set, one name per line, to a fresh
  temporary file whose path is returned.

* `get_search_roots` (the Root Locator, `src/rust/get_search_roots/src/main.rs`):
  given a root directory, prints it and exits early when it directly
  contains `Package.swift`; otherwise prints it unless its basename is
  `.build`, then walks the subtree collecting into a `BTreeSet<PathBuf>`
  the parent directory of every regular file named `Package.swift` whose
  path string does not contain `/.build/`, and prints the set, skipping
  paths that are not valid UTF-8.

Strings are modelled as `List Char`; operating-system strings (file-name
components, which need not be valid UTF-8) are modelled by `OsName`, a
list of characters (the lossy decoding) together with a validity flag.
The file system seen by the Root Locator's walk is modelled as the list
of regular files below the root, each given by its relative path of
components, in arbitrary discovery order.
-/

namespace GTP

/-! ### Generic ordered-insertion machinery (model of `BTreeSet`) -/

/-- Strict lexicographic order on lists induced by a strict order on
elements; mirrors the ordering Rust uses for byte strings and for
sequences of path components. -/
def lexLt {α : Type} [DecidableEq α] (lt : α → α → Bool) : List α → List α → Bool
  | [], [] => false
  | [], _ :: _ => true
  | _ :: _, [] => false
  | a :: as, b :: bs => if lt a b then true else if a = b then lexLt lt as bs else false

/-- Insertion into a strictly sorted list, keeping it sorted and without
duplicates; models `BTreeSet::insert`. -/
def insSorted {α : Type} [DecidableEq α] (lt : α → α → Bool) (x : α) : List α → List α
  | [] => [x]
  | y :: ys => if lt x y then x :: y :: ys else if x = y then y :: ys else y :: insSorted lt x ys

/-- Fold a list of elements into a sorted deduplicated list; models
building a `BTreeSet` by repeated insertion. -/
def insAll {α : Type} [DecidableEq α] (lt : α → α → Bool) (ts : List α) : List α :=
  ts.foldl (fun acc t => insSorted lt t acc) []

/-! ### Token Scanner (`extract_types`): definitions -/

/-- Strict order on characters by code point; on the ASCII/UTF-8 strings
handled here this coincides with Rust's byte order on `String`. -/
def charLtB (a b : Char) : Bool := decide (a.toNat < b.toNat)

/-- Lexicographic order on character lists: the order of `BTreeSet<String>`. -/
def ltChars (a b : List Char) : Bool := lexLt charLtB a b

/-- Whitespace predicate used by `str::trim` / `str::split_whitespace`;
the inputs they receive here are normalized lines, whose only whitespace
character is `' '`. -/
def isWs (c : Char) : Bool := c.isWhitespace

/-- Line preprocessing of `extract_types_from_file`: every character that
is not an ASCII letter or digit becomes a single space
(`if c.is_ascii_alphanumeric() { c } else { ' ' }`). -/
def normalize (l : List Char) : List Char :=
  l.map (fun c => if c.isAlphanum then c else ' ')

/-- `str::trim`: drop leading and trailing whitespace. -/
def trimWs (l : List Char) : List Char :=
  ((l.dropWhile isWs).reverse.dropWhile isWs).reverse

/-- `str::split_whitespace`: the maximal nonempty runs of non-whitespace
characters. -/
def splitWs : List Char → List (List Char)
  | [] => []
  | c :: rest =>
    if isWs c then splitWs rest
    else
      match rest with
      | [] => [[c]]
      | d :: _ =>
        if isWs d then [c] :: splitWs rest
        else
          match splitWs rest with
          | [] => [[c]]
          | t :: ts => (c :: t) :: ts

/-- `str::starts_with` for a literal pattern. -/
def isPre : List Char → List Char → Bool
  | [], _ => true
  | _ :: _, [] => false
  | a :: as, b :: bs => a == b && isPre as bs

/-- The pattern `"import "`. -/
def impSp : List Char := ['i', 'm', 'p', 'o', 'r', 't', ' ']

/-- The pattern `"//"`. -/
def twoSlash : List Char := ['/', '/']

/-- The regex `^[A-Z][A-Za-z0-9]+$` (`re_simple`): one ASCII uppercase
letter followed by one or more ASCII letters/digits, spanning the whole
token. -/
def matchesSimple (t : List Char) : Bool :=
  match t with
  | [] => false
  | c :: rest => c.isUpper && !rest.isEmpty && rest.all Char.isAlphanum

/-- The regex `^\x5b([A-Z][A-Za-z0-9]+)\x5d$` (`re_bracket`): a literal
`[`, the simple pattern, then a literal `]`; returns the captured inner
identifier. -/
def matchesBracket (t : List Char) : Option (List Char) :=
  match t with
  | [] => none
  | c :: rest =>
    if c = '[' ∧ rest.getLast? = some ']' ∧ matchesSimple rest.dropLast = true then
      some rest.dropLast
    else none

/-- Names a single source line contributes to the set: normalize, trim,
skip empty / `import `-led / `//`-led lines, then try `re_simple` and
`re_bracket` on each whitespace-separated token. -/
def processLine (l : List Char) : List (List Char) :=
  let n := trimWs (normalize l)
  if n.isEmpty || isPre impSp n || isPre twoSlash n then []
  else (splitWs n).filterMap (fun t => if matchesSimple t then some t else matchesBracket t)

/-- The `BTreeSet<String>` built by `extract_types_from_file` from the
decoded input lines, enumerated in ascending order. -/
def extractTypes (lines : List (List Char)) : List (List Char) :=
  insAll ltChars (lines.flatMap processLine)

/-- The bytes written to the output artifact: each name followed by a
newline (`writeln!`). -/
def artifactContents (lines : List (List Char)) : List Char :=
  (extractTypes lines).flatMap (fun t => t ++ ['\n'])

/-! ### I/O model of `extract_types_from_file` and its `main`

The fallible operations of the tool are the outcomes supplied by the
environment: opening the source file, reading/decoding each line,
creating the output artifact, each write to it, and persisting it.  The
two `Regex::new` calls receive fixed valid patterns and cannot fail, so
they are not failure sources.  A `keep()` failure aborts the process with
a message on the error stream, like the `Err` path of `main`; the model
folds it into the error result. -/

structure ScanEnv where
  openRes : Except (List Char) (List (Except (List Char) (List Char)))
  createRes : Except (List Char) Unit
  writeRes : Nat → Except (List Char) Unit
  keepRes : Except (List Char) Unit
  tempPath : List Char

def exIsErr {ε α : Type} : Except ε α → Bool
  | .error _ => true
  | .ok _ => false

/-- The successfully decoded values of a list of read results. -/
def oksOf {ε α : Type} (rs : List (Except ε α)) : List α :=
  rs.filterMap fun r => match r with
    | .ok a => some a
    | .error _ => none

/-- Sequential reading: the loop `for line in reader.lines()` with
`let line = line?` stops at the first failing read. -/
def seqLines {ε α : Type} : List (Except ε α) → Except ε (List α)
  | [] => .ok []
  | .error e :: _ => .error e
  | .ok a :: rest =>
    match seqLines rest with
    | .error e => .error e
    | .ok as => .ok (a :: as)

/-- The write loop: one `writeln!` per name, stopping at the first failure. -/
def writeLoop (w : Nat → Except (List Char) Unit) : Nat → List (List Char) →
    Except (List Char) Unit
  | _, [] => .ok ()
  | k, _ :: rest =>
    match w k with
    | .error e => .error e
    | .ok _ => writeLoop w (k + 1) rest

/-- `extract_types_from_file`: open, read and process the lines, create
the artifact, write the sorted names, persist, return the path. -/
def runScanner (env : ScanEnv) : Except (List Char) (List Char) :=
  match env.openRes with
  | .error e => .error e
  | .ok raw =>
    match seqLines raw with
    | .error e => .error e
    | .ok lines =>
      match env.createRes with
      | .error e => .error e
      | .ok _ =>
        match writeLoop env.writeRes 0 (extractTypes lines) with
        | .error e => .error e
        | .ok _ =>
          match env.keepRes with
          | .error e => .error e
          | .ok _ => .ok env.tempPath

/-- Whether the environment makes any of the tool's I/O operations fail:
the source cannot be opened, a line cannot be read/decoded, or the output
artifact cannot be created, written or persisted. -/
def ioFailure (env : ScanEnv) : Bool :=
  match env.openRes with
  | .error _ => true
  | .ok raw =>
    raw.any exIsErr || exIsErr env.createRes ||
      ((List.range (extractTypes (oksOf raw)).length).any fun i => exIsErr (env.writeRes i)) ||
      exIsErr env.keepRes

def usageMsg : List Char := ['U', 's', 'a', 'g', 'e']

def errPre : List Char := ['E', 'r', 'r', 'o', 'r', ':', ' ']

/-- The tool's `main`: exit code, standard-output lines, error-stream lines. -/
def scannerMain (argc : Nat) (env : ScanEnv) : Nat × List (List Char) × List (List Char) :=
  if argc ≠ 2 then (1, [], [usageMsg])
  else
    match runScanner env with
    | .ok p => (0, [p], [])
    | .error e => (1, [], [errPre ++ e])

def linesOf (env : ScanEnv) : Option (List (List Char)) :=
  match env.openRes with
  | .error _ => none
  | .ok raw =>
    match seqLines raw with
    | .error _ => none
    | .ok ls => some ls

/-- The artifact contents produced from an environment whose reads succeed. -/
def contentsOf (env : ScanEnv) : Option (List Char) :=
  (linesOf env).map artifactContents

/-! ### Root Locator (`get_search_roots`): definitions -/

/-- Model of an operating-system string (one path component): its lossy
UTF-8 decoding together with whether the underlying bytes were valid
UTF-8 (for valid names the decoding is exact). -/
structure OsName where
  chars : List Char
  valid : Bool
deriving DecidableEq

/-- Order on `OsName` components mirroring the byte order `OsStr` uses
inside Rust's `Path` comparison. -/
def osLt (a b : OsName) : Bool :=
  ltChars a.chars b.chars || (decide (a.chars = b.chars) && (!a.valid && b.valid))

/-- Componentwise path order: the order of `BTreeSet<PathBuf>` on paths
sharing the same root prefix. -/
def ltComps (a b : List OsName) : Bool := lexLt osLt a b

def pkgChars : List Char :=
  ['P', 'a', 'c', 'k', 'a', 'g', 'e', '.', 's', 'w', 'i', 'f', 't']

def buildChars : List Char := ['.', 'b', 'u', 'i', 'l', 'd']

def dotBuildSlash : List Char := ['/', '.', 'b', 'u', 'i', 'l', 'd', '/']

/-- The file name `Package.swift` (necessarily valid UTF-8). -/
def pkgName : OsName := ⟨pkgChars, true⟩

/-- `root_path.join("Package.swift").is_file()`: the walked file list
contains `Package.swift` directly in the root. -/
def directHasPkg (fs : List (List OsName)) : Bool :=
  fs.any fun e => decide (e = [pkgName])

/-- `entry.file_name() == "Package.swift"`: the last component equals the
sentinel byte-for-byte (valid UTF-8 with exactly these characters). -/
def isPkgFile (e : List OsName) : Bool :=
  decide (e.getLast? = some pkgName)

/-- Split a string at every `/`, keeping empty pieces. -/
def splitSlash : List Char → List (List Char)
  | [] => [[]]
  | c :: rest =>
    if c = '/' then [] :: splitSlash rest
    else
      match splitSlash rest with
      | [] => [[c]]
      | t :: ts => (c :: t) :: ts

/-- `Path::file_name` on a Unix path string: the last component after
ignoring empty and `.` components; `none` when the path ends in `..` or
has no nameable component. -/
def fileName (p : List Char) : Option (List Char) :=
  let comps := (splitSlash p).filter fun c => !c.isEmpty && !decide (c = ['.'])
  match comps.getLast? with
  | none => none
  | some c => if c = ['.', '.'] then none else some c

/-- The line printed before the walk: the root itself, unless its
basename is literally `.build`; printed as fallback when the basename
cannot be determined. -/
def headerLines (root : List Char) : List (List Char) :=
  match fileName root with
  | some b => if b = buildChars then [] else [root]
  | none => [root]

/-- Rendering of a relative component path: each component preceded by a
separator, its characters given by the lossy decoding
(`to_string_lossy`). -/
def flatPath (comps : List OsName) : List Char :=
  comps.flatMap fun n => '/' :: n.chars

/-- `entry.path().to_string_lossy()`: the root string followed by the
entry's components. -/
def entryPath (root : List Char) (e : List OsName) : List Char :=
  root ++ flatPath e

/-- `str::contains` for a literal pattern. -/
def containsSub (pat : List Char) : List Char → Bool
  | [] => isPre pat []
  | c :: rest => isPre pat (c :: rest) || containsSub pat rest

/-- The walk's filter: a regular file named `Package.swift` whose path
string does not contain `/.build/`. -/
def keepEntry (root : List Char) (e : List OsName) : Bool :=
  isPkgFile e && !containsSub dotBuildSlash (entryPath root e)

/-- The `BTreeSet<PathBuf>` of parent directories of kept entries,
enumerated in ascending componentwise order; directories are identified
by their component path relative to the root. -/
def foundDirs (root : List Char) (fs : List (List OsName)) : List (List OsName) :=
  fs.foldl (fun acc e => if keepEntry root e then insSorted ltComps e.dropLast acc else acc) []

/-- `Path::to_str` on a relative component path: defined exactly when
every component is valid UTF-8. -/
def osPathToStr (d : List OsName) : Option (List Char) :=
  if d.all (fun n => n.valid) then some (flatPath d) else none

/-- The nested-discovery lines printed after the walk
(`if let Some(s) = dir.to_str() { println!("{}", s) }`). -/
def printedNested (root : List Char) (fs : List (List OsName)) : List (List Char) :=
  (foundDirs root fs).filterMap fun d => (osPathToStr d).map fun s => root ++ s

/-- Everything `get_search_roots` prints on standard output, in order. -/
def getSearchRootsOut (root : List Char) (fs : List (List OsName)) : List (List Char) :=
  if directHasPkg fs then [root] else headerLines root ++ printedNested root fs

/-- Well-formedness of a file-name component as the operating system
guarantees it: the name contains no path separator. -/
def wfName (n : OsName) : Bool := decide ('/' ∉ n.chars)

def wfFS (fs : List (List OsName)) : Bool := fs.all fun e => e.all wfName

/-! ### Concrete inputs used by witnesses and counterexamples -/

def nA : OsName := ⟨['a'], true⟩

def nB : OsName := ⟨['b'], true⟩

def nAdotB : OsName := ⟨['a', '.', 'b'], true⟩

def nSub : OsName := ⟨['s'], true⟩

def nMyBuild : OsName := ⟨['m', 'y', '.', 'b', 'u', 'i', 'l', 'd'], true⟩

def nDotBuild : OsName := ⟨['.', 'b', 'u', 'i', 'l', 'd'], true⟩

def rootR : List Char := ['r']

def fsC2 : List (List OsName) := [[pkgName], [nSub, pkgName]]

def fsC3 : List (List OsName) := [[nMyBuild, pkgName], [nDotBuild, nSub, pkgName]]

def fsC5 : List (List OsName) := [[nAdotB, pkgName], [nA, nB, pkgName]]

def rootC6 : List Char := ['x', '/', '.', 'b', 'u', 'i', 'l', 'd']

def envA : ScanEnv :=
  ⟨.ok [.ok ['A', 'b']], .ok (), fun _ => .ok (), .ok (), ['p', '1']⟩

def envB : ScanEnv :=
  ⟨.ok [.ok ['A', 'b']], .ok (), fun _ => .ok (), .ok (), ['p', '2']⟩

/-! ### Order lemmas -/

theorem charLtB_irrefl (a : Char) : charLtB a a = false := by
  simp [charLtB]

theorem charLtB_trans (a b c : Char) (h1 : charLtB a b = true) (h2 : charLtB b c = true) :
    charLtB a c = true := by
  simp only [charLtB, decide_eq_true_eq] at *
  omega

theorem charLtB_connex (a b : Char) (h1 : charLtB a b = false) (h2 : charLtB b a = false) :
    a = b := by
  simp only [charLtB, decide_eq_false_iff_not, not_lt] at h1 h2
  apply Char.eq_of_val_eq
  apply UInt32.eq_of_val_eq
  exact Fin.ext (Nat.le_antisymm h2 h1)

theorem lexLt_irrefl {α : Type} [DecidableEq α] (lt : α → α → Bool)
    (hirr : ∀ a, lt a a = false) : ∀ l : List α, lexLt lt l l = false
  | [] => rfl
  | a :: as => by
    simp only [lexLt, hirr a, if_false, if_pos rfl]
    exact lexLt_irrefl lt hirr as

theorem lexLt_trans {α : Type} [DecidableEq α] (lt : α → α → Bool)
    (htr : ∀ a b c, lt a b = true → lt b c = true → lt a c = true) :
    ∀ l₁ l₂ l₃ : List α, lexLt lt l₁ l₂ = true → lexLt lt l₂ l₃ = true →
      lexLt lt l₁ l₃ = true := by
  intro l₁
  induction l₁ with
  | nil =>
    intro l₂ l₃ h12 h23
    cases l₂ with
    | nil => exact h23
    | cons b bs =>
      cases l₃ with
      | nil => exact absurd h23 (by simp [lexLt])
      | cons c cs => rfl
  | cons a as ih =>
    intro l₂ l₃ h12 h23
    cases l₂ with
    | nil => exact absurd h12 (by simp [lexLt])
    | cons b bs =>
      cases l₃ with
      | nil => exact absurd h23 (by simp [lexLt])
      | cons c cs =>
        simp only [lexLt] at h12 h23 ⊢
        by_cases hab : lt a b = true
        · by_cases hbc : lt b c = true
          · rw [if_pos (htr a b c hab hbc)]
          · rw [if_neg hbc] at h23
            by_cases hbc' : b = c
            · subst hbc'
              rw [if_pos hab]
            · rw [if_neg hbc'] at h23
              exact absurd h23 (by simp)
        · rw [if_neg hab] at h12
          by_cases hab' : a = b
          · subst hab'
            rw [if_pos rfl] at h12
            by_cases hac : lt a c = true
            · rw [if_pos hac]
            · rw [if_neg hac] at h23 ⊢
              by_cases hac' : a = c
              · subst hac'
                rw [if_pos rfl] at h23 ⊢
                exact ih bs cs h12 h23
              · rw [if_neg hac'] at h23
                exact absurd h23 (by simp)
          · rw [if_neg hab'] at h12
            exact absurd h12 (by simp)

theorem lexLt_connex {α : Type} [DecidableEq α] (lt : α → α → Bool)
    (hco : ∀ a b, lt a b = false → lt b a = false → a = b) :
    ∀ l₁ l₂ : List α, lexLt lt l₁ l₂ = false → lexLt lt l₂ l₁ = false → l₁ = l₂ := by
  intro l₁
  induction l₁ with
  | nil =>
    intro l₂ h12 _
    cases l₂ with
    | nil => rfl
    | cons b bs => exact absurd h12 (by simp [lexLt])
  | cons a as ih =>
    intro l₂ h12 h21
    cases l₂ with
    | nil => exact absurd h21 (by simp [lexLt])
    | cons b bs =>
      simp only [lexLt] at h12 h21
      by_cases hab : lt a b = true
      · rw [if_pos hab] at h12
        exact absurd h12 (by simp)
      · rw [if_neg hab] at h12
        by_cases hba : lt b a = true
        · rw [if_pos hba] at h21
          exact absurd h21 (by simp)
        · have hab' : a = b :=
            hco a b (Bool.not_eq_true _ ▸ hab) (Bool.not_eq_true _ ▸ hba)
          subst hab'
          rw [if_neg hab] at h21
          rw [if_pos rfl] at h12 h21
          rw [ih bs h12 h21]

theorem ltChars_irrefl (l : List Char) : ltChars l l = false :=
  lexLt_irrefl charLtB charLtB_irrefl l

theorem ltChars_trans (a b c : List Char) (h1 : ltChars a b = true)
    (h2 : ltChars b c = true) : ltChars a c = true :=
  lexLt_trans charLtB charLtB_trans a b c h1 h2

theorem ltChars_connex (a b : List Char) (h1 : ltChars a b = false)
    (h2 : ltChars b a = false) : a = b :=
  lexLt_connex charLtB charLtB_connex a b h1 h2

/-! ### Lemmas about sorted insertion -/

theorem mem_insSorted {α : Type} [DecidableEq α] (lt : α → α → Bool) (x a : α)
    (l : List α) : a ∈ insSorted lt x l ↔ a = x ∨ a ∈ l := by
  induction l with
  | nil => simp [insSorted]
  | cons y ys ih =>
    by_cases h1 : lt x y = true
    · simp only [insSorted, if_pos h1, List.mem_cons]
    · by_cases h2 : x = y
      · subst h2
        simp only [insSorted, if_neg h1]
        simp only [if_true, List.mem_cons]
        tauto
      · simp only [insSorted, if_neg h1, if_neg h2, List.mem_cons, ih]
        tauto

theorem mem_insAll_gen {α : Type} [DecidableEq α] (lt : α → α → Bool) (a : α)
    (ts : List α) : ∀ acc : List α,
    (a ∈ ts.foldl (fun acc t => insSorted lt t acc) acc ↔ a ∈ acc ∨ a ∈ ts) := by
  induction ts with
  | nil => intro acc; simp
  | cons t ts ih =>
    intro acc
    simp only [List.foldl_cons, ih (insSorted lt t acc), mem_insSorted, List.mem_cons]
    tauto

theorem mem_insAll {α : Type} [DecidableEq α] (lt : α → α → Bool) (a : α) (ts : List α) :
    a ∈ insAll lt ts ↔ a ∈ ts := by
  rw [insAll, mem_insAll_gen]
  simp

/-- Sortedness (strict `Pairwise`) is preserved by sorted insertion,
given transitivity and connexity of the element order. -/
theorem pairwise_insSorted {α : Type} [DecidableEq α] (lt : α → α → Bool)
    (htr : ∀ a b c, lt a b = true → lt b c = true → lt a c = true)
    (hco : ∀ a b, lt a b = false → lt b a = false → a = b) (x : α) :
    ∀ l : List α, l.Pairwise (fun a b => lt a b = true) →
      (insSorted lt x l).Pairwise (fun a b => lt a b = true) := by
  intro l
  induction l with
  | nil =>
    intro _
    simp [insSorted]
  | cons y ys ih =>
    intro hl
    obtain ⟨hy, hys⟩ := List.pairwise_cons.mp hl
    by_cases h1 : lt x y = true
    · simp only [insSorted, if_pos h1]
      refine List.pairwise_cons.mpr ⟨?_, hl⟩
      intro z hz
      rcases List.mem_cons.mp hz with h | h
      · subst h; exact h1
      · exact htr x y z h1 (hy z h)
    · by_cases h2 : x = y
      · subst h2
        simp only [insSorted, if_neg h1]
        simp only [if_true]
        exact hl
      · simp only [insSorted, if_neg h1, if_neg h2]
        refine List.pairwise_cons.mpr ⟨?_, ih hys⟩
        intro z hz
        rcases (mem_insSorted lt x z ys).mp hz with h | h
        · subst h
          cases hyx : lt y z with
          | true => rfl
          | false =>
            simp only [Bool.not_eq_true] at h1
            exact absurd (hco z y h1 hyx) h2
        · exact hy z h

theorem pairwise_insAll_gen {α : Type} [DecidableEq α] (lt : α → α → Bool)
    (htr : ∀ a b c, lt a b = true → lt b c = true → lt a c = true)
    (hco : ∀ a b, lt a b = false → lt b a = false → a = b) (ts : List α) :
    ∀ acc : List α, acc.Pairwise (fun a b => lt a b = true) →
      (ts.foldl (fun acc t => insSorted lt t acc) acc).Pairwise (fun a b => lt a b = true) := by
  induction ts with
  | nil => intro acc h; exact h
  | cons t ts ih =>
    intro acc h
    simp only [List.foldl_cons]
    exact ih (insSorted lt t acc) (pairwise_insSorted lt htr hco t acc h)

theorem pairwise_insAll {α : Type} [DecidableEq α] (lt : α → α → Bool)
    (htr : ∀ a b c, lt a b = true → lt b c = true → lt a c = true)
    (hco : ∀ a b, lt a b = false → lt b a = false → a = b) (ts : List α) :
    (insAll lt ts).Pairwise (fun a b => lt a b = true) :=
  pairwise_insAll_gen lt htr hco ts [] (by simp)

/-- Two strictly sorted lists with the same members are equal. -/
theorem sorted_eq_of_mem_iff {α : Type} (lt : α → α → Bool)
    (hirr : ∀ a, lt a a = false)
    (htr : ∀ a b c, lt a b = true → lt b c = true → lt a c = true) :
    ∀ l₁ l₂ : List α, l₁.Pairwise (fun a b => lt a b = true) →
      l₂.Pairwise (fun a b => lt a b = true) → (∀ x, x ∈ l₁ ↔ x ∈ l₂) → l₁ = l₂ := by
  intro l₁
  induction l₁ with
  | nil =>
    intro l₂ _ _ hm
    cases l₂ with
    | nil => rfl
    | cons b l₂ => exact absurd ((hm b).mpr (List.mem_cons_self b l₂)) (List.not_mem_nil b)
  | cons a l₁ ih =>
    intro l₂ h₁ h₂ hm
    cases l₂ with
    | nil => exact absurd ((hm a).mp (List.mem_cons_self a l₁)) (List.not_mem_nil a)
    | cons b l₂ =>
      obtain ⟨ha, h₁'⟩ := List.pairwise_cons.mp h₁
      obtain ⟨hb, h₂'⟩ := List.pairwise_cons.mp h₂
      have hasym : ∀ u v, lt u v = true → lt v u = true → False := by
        intro u v huv hvu
        have h := htr u v u huv hvu
        rw [hirr u] at h
        simp at h
      have hab : a = b := by
        rcases List.mem_cons.mp ((hm a).mp (List.mem_cons_self a l₁)) with h | h
        · exact h
        · rcases List.mem_cons.mp ((hm b).mpr (List.mem_cons_self b l₂)) with h' | h'
          · exact h'.symm
          · exact (hasym a b (ha b h') (hb a h)).elim
      subst hab
      have htails : ∀ x, x ∈ l₁ ↔ x ∈ l₂ := by
        intro x
        constructor
        · intro hx
          rcases List.mem_cons.mp ((hm x).mp (List.mem_cons_of_mem a hx)) with h | h
          · subst h
            have h' := ha x hx
            rw [hirr x] at h'
            simp at h'
          · exact h
        · intro hx
          rcases List.mem_cons.mp ((hm x).mpr (List.mem_cons_of_mem a hx)) with h | h
          · subst h
            have h' := hb x hx
            rw [hirr x] at h'
            simp at h'
          · exact h
      rw [ih l₂ h₁' h₂' htails]

/-! ### Lemmas about the scanner's line pipeline -/

theorem mem_normalize (l : List Char) (c : Char) (h : c ∈ normalize l) :
    c.isAlphanum = true ∨ c = ' ' := by
  simp only [normalize, List.mem_map] at h
  obtain ⟨d, _, hd⟩ := h
  by_cases hda : d.isAlphanum = true
  · left
    rw [← hd, if_pos hda]
    exact hda
  · right
    rw [← hd, if_neg hda]

theorem dropWhile_subset {α : Type} (p : α → Bool) (l : List α) (c : α)
    (h : c ∈ l.dropWhile p) : c ∈ l := by
  induction l with
  | nil => simp [List.dropWhile] at h
  | cons a as ih =>
    rw [List.dropWhile] at h
    cases ha : p a with
    | true =>
      rw [ha] at h
      exact List.mem_cons_of_mem a (ih h)
    | false =>
      rw [ha] at h
      exact h

theorem mem_trimWs (l : List Char) (c : Char) (h : c ∈ trimWs l) : c ∈ l := by
  simp only [trimWs, List.mem_reverse] at h
  have h1 := dropWhile_subset isWs _ c h
  rw [List.mem_reverse] at h1
  exact dropWhile_subset isWs l c h1

theorem splitWs_ws (c : Char) (rest : List Char) (hc : isWs c = true) :
    splitWs (c :: rest) = splitWs rest := by
  cases rest with
  | nil => simp [splitWs, hc]
  | cons d rest' => simp only [splitWs, if_pos hc]

theorem splitWs_one (c : Char) (hc : isWs c = false) : splitWs [c] = [[c]] := by
  simp [splitWs, hc]

theorem splitWs_two_ws (c d : Char) (rest' : List Char) (hc : isWs c = false)
    (hd : isWs d = true) : splitWs (c :: d :: rest') = [c] :: splitWs (d :: rest') := by
  simp only [splitWs, hc, hd, Bool.false_eq_true, if_false, if_true]

theorem splitWs_two_nws (c d : Char) (rest' : List Char) (hc : isWs c = false)
    (hd : isWs d = false) :
    splitWs (c :: d :: rest') =
      match splitWs (d :: rest') with
      | [] => [[c]]
      | t :: ts => (c :: t) :: ts := by
  conv_lhs => rw [splitWs]
  simp only [hc, hd, Bool.false_eq_true, if_false]

theorem splitWs_sound (l : List Char) :
    ∀ t ∈ splitWs l, t ≠ [] ∧ ∀ c ∈ t, c ∈ l ∧ isWs c = false := by
  induction l with
  | nil => intro t ht; simp [splitWs] at ht
  | cons c rest ih =>
    intro t ht
    cases hc : isWs c with
    | true =>
      rw [splitWs_ws c rest hc] at ht
      obtain ⟨h1, h2⟩ := ih t ht
      exact ⟨h1, fun x hx => ⟨List.mem_cons_of_mem c (h2 x hx).1, (h2 x hx).2⟩⟩
    | false =>
      cases rest with
      | nil =>
        rw [splitWs_one c hc, List.mem_singleton] at ht
        subst ht
        refine ⟨by simp, ?_⟩
        intro x hx
        rw [List.mem_singleton] at hx
        subst hx
        exact ⟨List.mem_cons_self x [], hc⟩
      | cons d rest' =>
        cases hd : isWs d with
        | true =>
          rw [splitWs_two_ws c d rest' hc hd] at ht
          rcases List.mem_cons.mp ht with h | h
          · subst h
            refine ⟨by simp, ?_⟩
            intro x hx
            rw [List.mem_singleton] at hx
            subst hx
            exact ⟨List.mem_cons_self x _, hc⟩
          · obtain ⟨h1, h2⟩ := ih t h
            exact ⟨h1, fun x hx => ⟨List.mem_cons_of_mem c (h2 x hx).1, (h2 x hx).2⟩⟩
        | false =>
          rw [splitWs_two_nws c d rest' hc hd] at ht
          cases hsr : splitWs (d :: rest') with
          | nil =>
            rw [hsr, List.mem_singleton] at ht
            subst ht
            refine ⟨by simp, ?_⟩
            intro x hx
            rw [List.mem_singleton] at hx
            subst hx
            exact ⟨List.mem_cons_self x _, hc⟩
          | cons t' ts =>
            rw [hsr] at ht
            rcases List.mem_cons.mp ht with h | h
            · subst h
              refine ⟨by simp, ?_⟩
              intro x hx
              rcases List.mem_cons.mp hx with h' | h'
              · subst h'
                exact ⟨List.mem_cons_self x _, hc⟩
              · have ht' : t' ∈ splitWs (d :: rest') := by
                  rw [hsr]
                  exact List.mem_cons_self t' ts
                obtain ⟨_, h2⟩ := ih t' ht'
                exact ⟨List.mem_cons_of_mem c (h2 x h').1, (h2 x h').2⟩
            · have htm : t ∈ splitWs (d :: rest') := by
                rw [hsr]
                exact List.mem_cons_of_mem t' h
              obtain ⟨h1, h2⟩ := ih t htm
              exact ⟨h1, fun x hx => ⟨List.mem_cons_of_mem c (h2 x hx).1, (h2 x hx).2⟩⟩

/-- Every character of a whitespace-token of a normalized line is an
ASCII letter or digit. -/
theorem token_alphanum (l t : List Char) (ht : t ∈ splitWs (trimWs (normalize l))) :
    ∀ c ∈ t, c.isAlphanum = true := by
  intro c hc
  obtain ⟨_, h2⟩ := splitWs_sound (trimWs (normalize l)) t ht
  obtain ⟨hmem, hws⟩ := h2 c hc
  rcases mem_normalize l c (mem_trimWs (normalize l) c hmem) with h | h
  · exact h
  · subst h
    exact absurd (by decide : isWs ' ' = true) (by simp [hws])

theorem isPre_head (p : Char) (ps n : List Char) (h : isPre (p :: ps) n = true) :
    ∃ bs, n = p :: bs := by
  cases n with
  | nil => exact absurd h (by simp [isPre])
  | cons b bs =>
    simp only [isPre, Bool.and_eq_true, beq_iff_eq] at h
    exact ⟨bs, by rw [h.1]⟩

/-- The trimmed normalized line never starts with a slash. -/
theorem no_slash_start (l : List Char) : isPre twoSlash (trimWs (normalize l)) = false := by
  cases hp : isPre twoSlash (trimWs (normalize l)) with
  | false => rfl
  | true =>
    obtain ⟨bs, hbs⟩ := isPre_head '/' ['/'] (trimWs (normalize l)) hp
    have hmem : '/' ∈ trimWs (normalize l) := by
      rw [hbs]
      exact List.mem_cons_self _ _
    rcases mem_normalize l '/' (mem_trimWs (normalize l) '/' hmem) with h | h
    · exact absurd h (by decide)
    · exact absurd h (by decide)

theorem bracket_none_of_head_ne (c : Char) (rest : List Char) (hc : c ≠ '[') :
    matchesBracket (c :: rest) = none := by
  simp only [matchesBracket]
  rw [if_neg]
  intro hcontra
  exact hc hcontra.1

/-- On a token of a normalized line the bracket regex can never match. -/
theorem bracket_none_on_token (l t : List Char) (ht : t ∈ splitWs (trimWs (normalize l))) :
    matchesBracket t = none := by
  cases t with
  | nil => rfl
  | cons c rest =>
    have hc := token_alphanum l (c :: rest) ht c (List.mem_cons_self c rest)
    apply bracket_none_of_head_ne
    intro hcontra
    subst hcontra
    exact absurd hc (by decide)

/-- Membership in the names contributed by a single line. -/
theorem mem_processLine (l t : List Char) :
    t ∈ processLine l ↔
      ((trimWs (normalize l)).isEmpty = false ∧
       isPre impSp (trimWs (normalize l)) = false ∧
       isPre twoSlash (trimWs (normalize l)) = false ∧
       t ∈ splitWs (trimWs (normalize l)) ∧ matchesSimple t = true) := by
  simp only [processLine]
  by_cases hskip :
      ((trimWs (normalize l)).isEmpty || isPre impSp (trimWs (normalize l)) ||
        isPre twoSlash (trimWs (normalize l))) = true
  · rw [if_pos hskip]
    simp only [List.not_mem_nil, false_iff]
    intro hcontra
    simp only [Bool.or_eq_true] at hskip
    rcases hskip with (h | h) | h
    · rw [hcontra.1] at h
      exact Bool.false_ne_true h
    · rw [hcontra.2.1] at h
      exact Bool.false_ne_true h
    · rw [hcontra.2.2.1] at h
      exact Bool.false_ne_true h
  · rw [if_neg hskip]
    simp only [Bool.or_eq_true, not_or, Bool.not_eq_true] at hskip
    obtain ⟨⟨he, hi⟩, hs⟩ := hskip
    rw [List.mem_filterMap]
    constructor
    · rintro ⟨tok, htok, hf⟩
      by_cases hm : matchesSimple tok = true
      · rw [if_pos hm] at hf
        injection hf with hf
        subst hf
        exact ⟨he, hi, hs, htok, hm⟩
      · rw [if_neg hm, bracket_none_on_token l tok htok] at hf
        exact absurd hf (by simp)
    · rintro ⟨_, _, _, htok, hm⟩
      exact ⟨t, htok, by rw [if_pos hm]⟩

/-- C1: the Token Scanner's output set contains exactly the tokens that
come from a normalized line which, after trimming, is non-empty and does
not begin with `import ` or `//`, and that match one ASCII uppercase
letter followed by one or more ASCII letters/digits spanning the whole
token; the emitted list is deduplicated and in ascending order. -/
theorem c1_scanner_output (lines : List (List Char)) :
    (∀ t, t ∈ extractTypes lines ↔
      ∃ l ∈ lines, (trimWs (normalize l)).isEmpty = false ∧
        isPre impSp (trimWs (normalize l)) = false ∧
        isPre twoSlash (trimWs (normalize l)) = false ∧
        t ∈ splitWs (trimWs (normalize l)) ∧ matchesSimple t = true) ∧
    (extractTypes lines).Pairwise (fun a b => ltChars a b = true) ∧
    (extractTypes lines).Nodup := by
  refine ⟨?_, ?_, ?_⟩
  · intro t
    rw [extractTypes, mem_insAll, List.mem_flatMap]
    constructor
    · rintro ⟨l, hl, ht⟩
      exact ⟨l, hl, (mem_processLine l t).mp ht⟩
    · rintro ⟨l, hl, h⟩
      exact ⟨l, hl, (mem_processLine l t).mpr h⟩
  · exact pairwise_insAll ltChars ltChars_trans ltChars_connex _
  · have hp := pairwise_insAll ltChars ltChars_trans ltChars_connex (lines.flatMap processLine)
    refine hp.imp ?_
    intro a b h he
    subst he
    rw [ltChars_irrefl] at h
    exact Bool.false_ne_true h

/-- C4: after normalization, the trimmed line never begins with `//` and
no whitespace-token contains `[` or `]`, so the `//`-skip branch and the
bracket-pattern branch are unreachable on normalized input. -/
theorem c4_branches_unreachable (l : List Char) :
    isPre twoSlash (trimWs (normalize l)) = false ∧
    ∀ t ∈ splitWs (trimWs (normalize l)), '[' ∉ t ∧ ']' ∉ t ∧ matchesBracket t = none := by
  refine ⟨no_slash_start l, ?_⟩
  intro t ht
  have halnum := token_alphanum l t ht
  refine ⟨?_, ?_, bracket_none_on_token l t ht⟩
  · intro hmem
    exact absurd (halnum _ hmem) (by decide)
  · intro hmem
    exact absurd (halnum _ hmem) (by decide)

/-! ### Lemmas about the I/O model -/

theorem seqLines_isErr {ε α : Type} (rs : List (Except ε α)) :
    exIsErr (seqLines rs) = rs.any exIsErr := by
  induction rs with
  | nil => rfl
  | cons r rest ih =>
    cases r with
    | error e => simp [seqLines, exIsErr, List.any_cons]
    | ok a =>
      cases hsr : seqLines rest with
      | error e =>
        rw [hsr] at ih
        simp [seqLines, hsr, exIsErr, List.any_cons, ← ih]
      | ok as =>
        rw [hsr] at ih
        simp [seqLines, hsr, exIsErr, List.any_cons, ← ih]

theorem seqLines_ok_val {ε α : Type} (rs : List (Except ε α)) :
    ∀ as, seqLines rs = .ok as → as = oksOf rs := by
  induction rs with
  | nil =>
    intro as h
    injection h with h
    rw [← h]
    rfl
  | cons r rest ih =>
    intro as h
    cases r with
    | error e => exact absurd h (by simp [seqLines])
    | ok a =>
      cases hsr : seqLines rest with
      | error e =>
        rw [seqLines, hsr] at h
        exact absurd h (by simp)
      | ok as' =>
        rw [seqLines, hsr] at h
        injection h with h
        rw [← h, ih as' hsr]
        simp [oksOf]

theorem writeLoop_isErr (w : Nat → Except (List Char) Unit) :
    ∀ (ts : List (List Char)) (k : Nat),
      exIsErr (writeLoop w k ts) = (List.range ts.length).any fun i => exIsErr (w (k + i)) := by
  intro ts
  induction ts with
  | nil => intro k; rfl
  | cons t rest ih =>
    intro k
    cases hw : w k with
    | error e =>
      have hlhs : exIsErr (writeLoop w k (t :: rest)) = true := by
        rw [writeLoop, hw]
        rfl
      rw [hlhs]
      symm
      rw [List.any_eq_true]
      refine ⟨0, ?_, ?_⟩
      · simp
      · rw [Nat.add_zero, hw]
        rfl
    | ok u =>
      have hlhs : exIsErr (writeLoop w k (t :: rest)) = exIsErr (writeLoop w (k + 1) rest) := by
        rw [writeLoop, hw]
      rw [hlhs, ih (k + 1)]
      symm
      have h0 : exIsErr (w (k + 0)) = false := by rw [Nat.add_zero, hw]; rfl
      rw [List.length_cons, List.range_succ_eq_map, List.any_cons, h0, Bool.false_or,
        List.any_map]
      congr 1
      funext i
      simp only [Function.comp_apply]
      have harith : k + Nat.succ i = k + 1 + i := by omega
      rw [harith]

/-- C7: the Token Scanner fails exactly when one of its I/O operations
fails — opening or reading/decoding the source, or creating, writing or
persisting the output artifact — and on failure `main` reports one
message on the error stream and exits nonzero, while on success it exits
zero with no error output. -/
theorem c7_scanner_errors (env : ScanEnv) :
    exIsErr (runScanner env) = ioFailure env ∧
    (scannerMain 2 env).1 = (if ioFailure env = true then 1 else 0) ∧
    (scannerMain 2 env).2.2.length = (if ioFailure env = true then 1 else 0) := by
  have hmain : ∀ h : exIsErr (runScanner env) = ioFailure env,
      (scannerMain 2 env).1 = (if ioFailure env = true then 1 else 0) ∧
      (scannerMain 2 env).2.2.length = (if ioFailure env = true then 1 else 0) := by
    intro h
    rw [scannerMain, if_neg (by simp)]
    cases hr : runScanner env with
    | ok p =>
      rw [hr] at h
      simp only [exIsErr] at h
      rw [← h]
      simp
    | error e =>
      rw [hr] at h
      simp only [exIsErr] at h
      rw [← h]
      simp
  have hcore : exIsErr (runScanner env) = ioFailure env := by
    rw [runScanner, ioFailure]
    cases ho : env.openRes with
    | error e => rfl
    | ok raw =>
      cases hs : seqLines raw with
      | error e =>
        have hany : raw.any exIsErr = true := by
          rw [← seqLines_isErr, hs]
          rfl
        simp [hs, hany, exIsErr]
      | ok lines =>
        have hany : raw.any exIsErr = false := by
          rw [← seqLines_isErr, hs]
          rfl
        have hval : lines = oksOf raw := seqLines_ok_val raw lines hs
        subst hval
        simp only [hs, hany, Bool.false_or]
        cases hc : env.createRes with
        | error e => simp [hc, exIsErr]
        | ok u =>
          simp only [hc, exIsErr, Bool.false_or]
          have hwl := writeLoop_isErr env.writeRes (extractTypes (oksOf raw)) 0
          simp only [Nat.zero_add] at hwl
          cases hw : writeLoop env.writeRes 0 (extractTypes (oksOf raw)) with
          | error e =>
            rw [hw] at hwl
            simp only [exIsErr] at hwl
            simp [hw, exIsErr, ← hwl]
          | ok v =>
            rw [hw] at hwl
            simp only [exIsErr] at hwl
            simp only [hw, exIsErr, ← hwl, Bool.false_or]
            cases hk : env.keepRes with
            | error e => simp [hk, exIsErr]
            | ok w => simp [hk, exIsErr]
  exact ⟨hcore, (hmain hcore).1, (hmain hcore).2⟩

/-- C8: the artifact contents are a function of the decoded input lines
alone (two runs on equal inputs produce equal contents), the emitted list
never repeats a name, and repeating the entire input does not change the
result. -/
theorem c8_deterministic_dedup (env1 env2 : ScanEnv) (lines : List (List Char))
    (t : List Char) :
    (linesOf env1 = linesOf env2 → contentsOf env1 = contentsOf env2) ∧
    @List.count (List Char) instBEqOfDecidableEq t (extractTypes lines) ≤ 1 ∧
    extractTypes (lines ++ lines) = extractTypes lines := by
  refine ⟨?_, ?_, ?_⟩
  · intro h
    rw [contentsOf, contentsOf, h]
  · have hp := pairwise_insAll ltChars ltChars_trans ltChars_connex (lines.flatMap processLine)
    have hnd : (extractTypes lines).Nodup := by
      refine hp.imp ?_
      intro a b h he
      subst he
      rw [ltChars_irrefl] at h
      exact Bool.false_ne_true h
    exact List.nodup_iff_count_le_one.mp hnd t
  · apply sorted_eq_of_mem_iff ltChars ltChars_irrefl ltChars_trans
    · exact pairwise_insAll ltChars ltChars_trans ltChars_connex _
    · exact pairwise_insAll ltChars ltChars_trans ltChars_connex _
    · intro x
      rw [extractTypes, extractTypes, mem_insAll, mem_insAll]
      simp [List.mem_flatMap]

theorem c8_deterministic_dedup_witness :
    (contentsOf envA = contentsOf envB ∧
     @List.count (List Char) instBEqOfDecidableEq ['A', 'b'] (extractTypes [['A', 'b']]) ≤ 1 ∧
     extractTypes ([['A', 'b']] ++ [['A', 'b']]) = extractTypes [['A', 'b']]) :=
  ⟨(c8_deterministic_dedup envA envB [['A', 'b']] ['A', 'b']).1 (by rfl),
   (c8_deterministic_dedup envA envB [['A', 'b']] ['A', 'b']).2.1,
   (c8_deterministic_dedup envA envB [['A', 'b']] ['A', 'b']).2.2⟩

theorem c4_branches_unreachable_witness :
    isPre twoSlash (trimWs (normalize ['/', '/', ' ', '\x5b', 'F', 'o', 'o', '\x5d'])) = false ∧
    ('[' ∉ ['F', 'o', 'o'] ∧ ']' ∉ ['F', 'o', 'o'] ∧ matchesBracket ['F', 'o', 'o'] = none) :=
  ⟨(c4_branches_unreachable ['/', '/', ' ', '\x5b', 'F', 'o', 'o', '\x5d']).1,
   (c4_branches_unreachable ['/', '/', ' ', '\x5b', 'F', 'o', 'o', '\x5d']).2
     ['F', 'o', 'o'] (by decide)⟩

/-! ### Lemmas about the Root Locator's orders and collected set -/

theorem osLt_irrefl (a : OsName) : osLt a a = false := by
  simp [osLt, ltChars_irrefl]

theorem osLt_trans (a b c : OsName) (h1 : osLt a b = true) (h2 : osLt b c = true) :
    osLt a c = true := by
  simp only [osLt, Bool.or_eq_true, Bool.and_eq_true, decide_eq_true_eq,
    Bool.not_eq_true'] at h1 h2 ⊢
  rcases h1 with h1 | ⟨h1e, h1a, h1b⟩
  · rcases h2 with h2 | ⟨h2e, _, _⟩
    · exact Or.inl (ltChars_trans _ _ _ h1 h2)
    · left
      rw [← h2e]
      exact h1
  · rcases h2 with h2 | ⟨h2e, h2b, h2c⟩
    · left
      rw [h1e]
      exact h2
    · rw [h1b] at h2b
      exact absurd h2b (by simp)

theorem osLt_connex (a b : OsName) (h1 : osLt a b = false) (h2 : osLt b a = false) :
    a = b := by
  simp only [osLt, Bool.or_eq_false_iff] at h1 h2
  obtain ⟨h1c, h1v⟩ := h1
  obtain ⟨h2c, h2v⟩ := h2
  have hce : a.chars = b.chars := ltChars_connex _ _ h1c h2c
  rw [hce, decide_eq_true rfl, Bool.true_and] at h1v
  rw [← hce, decide_eq_true rfl, Bool.true_and] at h2v
  have hv : a.valid = b.valid := by
    cases ha : a.valid <;> cases hb : b.valid
    · rfl
    · rw [ha, hb] at h1v
      simp at h1v
    · rw [ha, hb] at h2v
      simp at h2v
    · rfl
  cases a
  cases b
  simp_all

theorem ltComps_irrefl (l : List OsName) : ltComps l l = false :=
  lexLt_irrefl osLt osLt_irrefl l

theorem ltComps_trans (a b c : List OsName) (h1 : ltComps a b = true)
    (h2 : ltComps b c = true) : ltComps a c = true :=
  lexLt_trans osLt osLt_trans a b c h1 h2

theorem ltComps_connex (a b : List OsName) (h1 : ltComps a b = false)
    (h2 : ltComps b a = false) : a = b :=
  lexLt_connex osLt osLt_connex a b h1 h2

theorem mem_foundDirs_gen (root : List Char) (d : List OsName) (fs : List (List OsName)) :
    ∀ acc : List (List OsName),
    (d ∈ fs.foldl
        (fun acc e => if keepEntry root e then insSorted ltComps e.dropLast acc else acc) acc ↔
      d ∈ acc ∨ ∃ e ∈ fs, keepEntry root e = true ∧ d = e.dropLast) := by
  induction fs with
  | nil => intro acc; simp
  | cons e fs ih =>
    intro acc
    simp only [List.foldl_cons]
    by_cases hk : keepEntry root e = true
    · rw [if_pos hk, ih (insSorted ltComps e.dropLast acc), mem_insSorted]
      constructor
      · rintro (h | h)
        · rcases h with h | h
          · exact Or.inr ⟨e, List.mem_cons_self e fs, hk, h⟩
          · exact Or.inl h
        · obtain ⟨e', he', hke', hde'⟩ := h
          exact Or.inr ⟨e', List.mem_cons_of_mem e he', hke', hde'⟩
      · rintro (h | h)
        · exact Or.inl (Or.inr h)
        · obtain ⟨e', he', hke', hde'⟩ := h
          rcases List.mem_cons.mp he' with h' | h'
          · subst h'
            exact Or.inl (Or.inl hde')
          · exact Or.inr ⟨e', h', hke', hde'⟩
    · rw [if_neg hk, ih acc]
      constructor
      · rintro (h | h)
        · exact Or.inl h
        · obtain ⟨e', he', hke', hde'⟩ := h
          exact Or.inr ⟨e', List.mem_cons_of_mem e he', hke', hde'⟩
      · rintro (h | h)
        · exact Or.inl h
        · obtain ⟨e', he', hke', hde'⟩ := h
          rcases List.mem_cons.mp he' with h' | h'
          · subst h'
            exact absurd hke' hk
          · exact Or.inr ⟨e', h', hke', hde'⟩

theorem mem_foundDirs (root : List Char) (fs : List (List OsName)) (d : List OsName) :
    d ∈ foundDirs root fs ↔ ∃ e ∈ fs, keepEntry root e = true ∧ d = e.dropLast := by
  rw [foundDirs, mem_foundDirs_gen]
  simp

theorem pairwise_foundDirs_gen (root : List Char) (fs : List (List OsName)) :
    ∀ acc : List (List OsName), acc.Pairwise (fun a b => ltComps a b = true) →
      (fs.foldl
        (fun acc e => if keepEntry root e then insSorted ltComps e.dropLast acc else acc)
        acc).Pairwise (fun a b => ltComps a b = true) := by
  induction fs with
  | nil => intro acc h; exact h
  | cons e fs ih =>
    intro acc h
    simp only [List.foldl_cons]
    by_cases hk : keepEntry root e = true
    · rw [if_pos hk]
      exact ih _ (pairwise_insSorted ltComps ltComps_trans ltComps_connex e.dropLast acc h)
    · rw [if_neg hk]
      exact ih acc h

theorem pairwise_foundDirs (root : List Char) (fs : List (List OsName)) :
    (foundDirs root fs).Pairwise (fun a b => ltComps a b = true) :=
  pairwise_foundDirs_gen root fs [] (by simp)

/-- A file entry recognized as `Package.swift` is its parent followed by
the sentinel name. -/
theorem isPkgFile_eq (e : List OsName) (h : isPkgFile e = true) :
    e = e.dropLast ++ [pkgName] := by
  rw [isPkgFile, decide_eq_true_eq] at h
  rcases List.eq_nil_or_concat e with he | ⟨l', a, he⟩
  · subst he
    simp at h
  · subst he
    rw [List.concat_eq_append] at h ⊢
    rw [List.getLast?_concat] at h
    injection h with h
    rw [List.dropLast_concat, h]

/-! ### Rendering of directory paths -/

theorem flatPath_nil : flatPath [] = [] := rfl

theorem flatPath_cons (n : OsName) (d : List OsName) :
    flatPath (n :: d) = '/' :: (n.chars ++ flatPath d) := by
  rw [flatPath, flatPath, List.flatMap_cons, List.cons_append]

theorem flatPath_shape (d : List OsName) :
    flatPath d = [] ∨ ∃ s, flatPath d = '/' :: s := by
  cases d with
  | nil => exact Or.inl rfl
  | cons n d' => exact Or.inr ⟨n.chars ++ flatPath d', flatPath_cons n d'⟩

/-- Splitting a concatenation at the first separator: if `a` and `b` are
separator-free and `x`, `y` are empty or separator-led, the decomposition
is unique. -/
theorem chunk_split (a : List Char) :
    ∀ b x y : List Char, '/' ∉ a → '/' ∉ b →
      (x = [] ∨ ∃ s, x = '/' :: s) → (y = [] ∨ ∃ s, y = '/' :: s) →
      a ++ x = b ++ y → a = b ∧ x = y := by
  induction a with
  | nil =>
    intro b x y _ hb hx _ h
    cases b with
    | nil => exact ⟨rfl, h⟩
    | cons c b' =>
      rw [List.nil_append, List.cons_append] at h
      rcases hx with hx | ⟨s, hx⟩
      · subst hx
        exact absurd h (by simp)
      · subst hx
        injection h with h1 _
        exfalso
        apply hb
        rw [← h1]
        exact List.mem_cons_self '/' b'
  | cons p a' ih =>
    intro b x y ha hb hx hy h
    cases b with
    | nil =>
      rw [List.nil_append, List.cons_append] at h
      rcases hy with hy | ⟨s, hy⟩
      · subst hy
        exact absurd h (by simp)
      · subst hy
        injection h with h1 _
        exfalso
        apply ha
        rw [h1]
        exact List.mem_cons_self '/' a'
    | cons q b' =>
      rw [List.cons_append, List.cons_append] at h
      injection h with h1 h2
      subst h1
      have ha' : '/' ∉ a' := fun hm => ha (List.mem_cons_of_mem p hm)
      have hb' : '/' ∉ b' := fun hm => hb (List.mem_cons_of_mem p hm)
      obtain ⟨hab, hxy⟩ := ih b' x y ha' hb' hx hy h2
      exact ⟨by rw [hab], hxy⟩

/-- On separator-free, all-valid component lists, the rendered path
determines the components. -/
theorem flatPath_inj : ∀ d1 d2 : List OsName,
    (∀ n ∈ d1, wfName n = true ∧ n.valid = true) →
    (∀ n ∈ d2, wfName n = true ∧ n.valid = true) →
    flatPath d1 = flatPath d2 → d1 = d2 := by
  intro d1
  induction d1 with
  | nil =>
    intro d2 _ _ h
    cases d2 with
    | nil => rfl
    | cons m d2' =>
      rw [flatPath_nil, flatPath_cons] at h
      exact absurd h (by simp)
  | cons n d1' ih =>
    intro d2 h1 h2 h
    cases d2 with
    | nil =>
      rw [flatPath_nil, flatPath_cons] at h
      exact absurd h (by simp)
    | cons m d2' =>
      rw [flatPath_cons, flatPath_cons] at h
      injection h with _ h2'
      have hn := h1 n (List.mem_cons_self n d1')
      have hm := h2 m (List.mem_cons_self m d2')
      have hwn : '/' ∉ n.chars := by
        have hx := hn.1
        rw [wfName, decide_eq_true_eq] at hx
        exact hx
      have hwm : '/' ∉ m.chars := by
        have hx := hm.1
        rw [wfName, decide_eq_true_eq] at hx
        exact hx
      obtain ⟨hc, hf⟩ := chunk_split n.chars m.chars (flatPath d1') (flatPath d2')
        hwn hwm (flatPath_shape d1') (flatPath_shape d2') h2'
      have hnm : n = m := by
        cases n
        cases m
        simp only at hc
        simp_all
      subst hnm
      rw [ih d2' (fun x hx => h1 x (List.mem_cons_of_mem n hx))
        (fun x hx => h2 x (List.mem_cons_of_mem n hx)) hf]

/-- The printed nested lines are the renderings of the all-valid
directories, in set order: invalid paths are silently dropped. -/
theorem filterMap_osPath (root : List Char) :
    ∀ l : List (List OsName),
      (l.filterMap fun d => (osPathToStr d).map fun s => root ++ s) =
        ((l.filter fun d => d.all fun n => n.valid).map fun d => root ++ flatPath d) := by
  intro l
  induction l with
  | nil => rfl
  | cons d ds ih =>
    by_cases hv : (d.all fun n => n.valid) = true
    · have hf : osPathToStr d = some (flatPath d) := by
        rw [osPathToStr, if_pos hv]
      rw [List.filterMap_cons_some (by rw [hf]; rfl)]
      rw [List.filter_cons, if_pos hv, List.map_cons, ih]
    · have hf : osPathToStr d = none := by
        rw [osPathToStr, if_neg hv]
      rw [List.filterMap_cons_none (by rw [hf]; rfl)]
      rw [List.filter_cons, if_neg hv, ih]

theorem foundDirs_wf (root : List Char) (fs : List (List OsName)) (hwf : wfFS fs = true) :
    ∀ d ∈ foundDirs root fs, ∀ n ∈ d, wfName n = true := by
  intro d hd n hn
  obtain ⟨e, he, _, hde⟩ := (mem_foundDirs root fs d).mp hd
  subst hde
  have hne : n ∈ e := List.dropLast_subset e hn
  rw [wfFS, List.all_eq_true] at hwf
  have hall := hwf e he
  rw [List.all_eq_true] at hall
  exact hall n hne

theorem printedNested_nodup (root : List Char) (fs : List (List OsName))
    (hwf : wfFS fs = true) : (printedNested root fs).Nodup := by
  rw [printedNested, filterMap_osPath root (foundDirs root fs)]
  have hnd : ((foundDirs root fs).filter fun d => d.all fun n => n.valid).Nodup := by
    have hp := pairwise_foundDirs root fs
    have hn : (foundDirs root fs).Nodup := by
      refine hp.imp ?_
      intro a b h he
      subst he
      rw [ltComps_irrefl] at h
      exact Bool.false_ne_true h
    exact hn.filter _
  refine List.Nodup.map_on ?_ hnd
  intro d1 hd1 d2 hd2 heq
  rw [List.mem_filter] at hd1 hd2
  have hfp : flatPath d1 = flatPath d2 := List.append_cancel_left heq
  refine flatPath_inj d1 d2 ?_ ?_ hfp
  · intro n hn
    refine ⟨foundDirs_wf root fs hwf d1 hd1.1 n hn, ?_⟩
    have := hd1.2
    rw [List.all_eq_true] at this
    exact this n hn
  · intro n hn
    refine ⟨foundDirs_wf root fs hwf d2 hd2.1 n hn, ?_⟩
    have := hd2.2
    rw [List.all_eq_true] at this
    exact this n hn

/-- When the root has no direct `Package.swift`, it is never one of the
nested lines. -/
theorem root_notin_printed (root : List Char) (fs : List (List OsName))
    (hnd : directHasPkg fs = false) : root ∉ printedNested root fs := by
  intro h
  rw [printedNested, List.mem_filterMap] at h
  obtain ⟨d, hd, hmap⟩ := h
  cases hos : osPathToStr d with
  | none =>
    rw [hos] at hmap
    exact absurd hmap (by simp)
  | some s =>
    rw [hos, Option.map_some'] at hmap
    injection hmap with hmap
    have hs : s = [] := by
      have hlen := congrArg List.length hmap
      rw [List.length_append] at hlen
      have : s.length = 0 := by omega
      exact List.eq_nil_of_length_eq_zero this
    rw [osPathToStr] at hos
    by_cases hv : (d.all fun n => n.valid) = true
    · rw [if_pos hv] at hos
      injection hos with hos
      have hdnil : d = [] := by
        cases d with
        | nil => rfl
        | cons n d' =>
          rw [flatPath_cons, hs] at hos
          exact absurd hos (by simp)
      subst hdnil
      obtain ⟨e, he, hke, hde⟩ := (mem_foundDirs root fs []).mp hd
      have hpk : isPkgFile e = true := by
        rw [keepEntry, Bool.and_eq_true] at hke
        exact hke.1
      have hee := isPkgFile_eq e hpk
      rw [← hde, List.nil_append] at hee
      rw [directHasPkg, List.any_eq_false] at hnd
      have hne := hnd e he
      rw [hee] at hne
      simp at hne
    · rw [if_neg hv] at hos
      exact absurd hos (by simp)

theorem headerLines_sub (root x : List Char) (h : x ∈ headerLines root) : x = root := by
  rw [headerLines] at h
  split at h
  · split at h
    · exact absurd h (List.not_mem_nil x)
    · rw [List.mem_singleton] at h
      exact h
  · rw [List.mem_singleton] at h
    exact h

theorem headerLines_nodup (root : List Char) : (headerLines root).Nodup := by
  rw [headerLines]
  split
  · split
    · simp
    · simp
  · simp

theorem mem_headerLines (root : List Char) :
    root ∈ headerLines root ↔ fileName root ≠ some buildChars := by
  rw [headerLines]
  split
  · rename_i b heq
    rw [heq]
    by_cases hb : b = buildChars
    · subst hb
      rw [if_pos rfl]
      simp
    · rw [if_neg hb]
      simp [hb]
  · rename_i heq
    rw [heq]
    simp

/-! ### Root Locator claims -/

/-- C2: when the starting directory directly contains `Package.swift`,
the Root Locator prints exactly the starting directory and performs no
nested discovery, even if deeper `Package.swift` files exist. -/
theorem c2_early_exit (root : List Char) (fs : List (List OsName))
    (h : directHasPkg fs = true) : getSearchRootsOut root fs = [root] := by
  rw [getSearchRootsOut, if_pos h]

theorem c2_early_exit_witness :
    directHasPkg fsC2 = true ∧ getSearchRootsOut rootR fsC2 = [rootR] :=
  ⟨by decide, c2_early_exit rootR fsC2 (by decide)⟩

/-- C3: a walked `Package.swift` file's parent directory is recorded if
and only if the file's full path string does not contain the substring
`/.build/` (a raw substring test on the whole path string). -/
theorem c3_build_exclusion (root : List Char) (fs : List (List OsName)) (e : List OsName)
    (he : e ∈ fs) (hpk : isPkgFile e = true) :
    e.dropLast ∈ foundDirs root fs ↔
      containsSub dotBuildSlash (entryPath root e) = false := by
  constructor
  · intro hd
    obtain ⟨e', he', hke', hde'⟩ := (mem_foundDirs root fs e.dropLast).mp hd
    rw [keepEntry, Bool.and_eq_true] at hke'
    obtain ⟨hpk', hnc'⟩ := hke'
    have h1 := isPkgFile_eq e hpk
    have h2 := isPkgFile_eq e' hpk'
    have hee : e' = e := by
      rw [h2, ← hde', ← h1]
    rw [hee] at hnc'
    rw [← Bool.not_eq_true']
    simpa using hnc'
  · intro hc
    rw [mem_foundDirs]
    refine ⟨e, he, ?_, rfl⟩
    rw [keepEntry, hpk, hc]
    rfl

theorem c3_build_exclusion_witness :
    [nMyBuild] ∈ foundDirs rootR fsC3 ∧ [nDotBuild, nSub] ∉ foundDirs rootR fsC3 :=
  ⟨(c3_build_exclusion rootR fsC3 [nMyBuild, pkgName] (by decide) (by decide)).mpr
      (by decide),
   fun h =>
     absurd
       ((c3_build_exclusion rootR fsC3 [nDotBuild, nSub, pkgName] (by decide) (by decide)).mp h)
       (by decide)⟩

/-- C5 counterexample: with directories `a.b` and `a/b` both holding a
`Package.swift`, the Root Locator prints `r/a/b` before `r/a.b`, yet
`r/a.b` precedes `r/a/b` lexicographically — the printed nested lines
are not in ascending lexicographic order of strings. -/
theorem c5_counterexample :
    getSearchRootsOut rootR fsC5 =
      [['r'], ['r', '/', 'a', '/', 'b'], ['r', '/', 'a', '.', 'b']] ∧
    ltChars ['r', '/', 'a', '.', 'b'] ['r', '/', 'a', '/', 'b'] = true := by
  constructor
  · decide
  · decide

/-- C5 as amended: in any discovery order the recorded nested directories
are pairwise strictly ascending in componentwise path order (the order of
`BTreeSet<PathBuf>`), and the printed nested lines are pairwise distinct;
componentwise path order coincides with lexicographic string order only
when no name contains a character ordered before `/`. -/
theorem c5_sorted_componentwise (root : List Char) (fs : List (List OsName))
    (hwf : wfFS fs = true) :
    (foundDirs root fs).Pairwise (fun a b => ltComps a b = true) ∧
    (printedNested root fs).Nodup :=
  ⟨pairwise_foundDirs root fs, printedNested_nodup root fs hwf⟩

theorem c5_sorted_componentwise_witness :
    wfFS fsC5 = true ∧
    ((foundDirs rootR fsC5).Pairwise (fun a b => ltComps a b = true) ∧
     (printedNested rootR fsC5).Nodup) :=
  ⟨by decide, c5_sorted_componentwise rootR fsC5 (by decide)⟩

/-- C6: without a direct `Package.swift`, the starting directory is
printed exactly when its final path segment is not literally `.build`,
the undetermined-basename case being printed as fallback; a `.build`
starting directory is itself omitted. -/
theorem c6_basename_filter (root : List Char) (fs : List (List OsName))
    (hnd : directHasPkg fs = false) :
    root ∈ getSearchRootsOut root fs ↔ fileName root ≠ some buildChars := by
  rw [getSearchRootsOut, if_neg (by simp [hnd])]
  rw [List.mem_append]
  constructor
  · rintro (h | h)
    · exact (mem_headerLines root).mp h
    · exact absurd h (root_notin_printed root fs hnd)
  · intro h
    exact Or.inl ((mem_headerLines root).mpr h)

theorem c6_basename_filter_witness :
    directHasPkg ([] : List (List OsName)) = false ∧
    rootC6 ∉ getSearchRootsOut rootC6 [] :=
  ⟨by decide,
   fun h => absurd ((c6_basename_filter rootC6 [] (by decide)).mp h) (by decide)⟩

/-- C9: only directories whose paths convert losslessly to UTF-8 are
printed by the nested-discovery loop; the others are silently dropped,
with no other change to the output. -/
theorem c9_lossy_paths_skipped (root : List Char) (fs : List (List OsName)) :
    printedNested root fs =
      ((foundDirs root fs).filter fun d => d.all fun n => n.valid).map
        fun d => root ++ flatPath d := by
  rw [printedNested]
  exact filterMap_osPath root (foundDirs root fs)

/-- C10: in a single run over an unchanged file system with well-formed
names, no directory path is ever printed twice. -/
theorem c10_output_nodup (root : List Char) (fs : List (List OsName))
    (hwf : wfFS fs = true) : (getSearchRootsOut root fs).Nodup := by
  rw [getSearchRootsOut]
  by_cases hd : directHasPkg fs = true
  · rw [if_pos hd]
    simp
  · rw [if_neg hd]
    have hd' : directHasPkg fs = false := by
      simpa using hd
    refine List.Nodup.append (headerLines_nodup root) (printedNested_nodup root fs hwf) ?_
    intro x hx hy
    have hxr : x = root := headerLines_sub root x hx
    exact root_notin_printed root fs hd' (hxr ▸ hy)

theorem c10_output_nodup_witness :
    wfFS fsC3 = true ∧ (getSearchRootsOut rootR fsC3).Nodup :=
  ⟨by decide, c10_output_nodup rootR fsC3 (by decide)⟩

end GTP
